import Mathlib

/-!
Verification of the `hashvalue_replacer` stream-redaction library.

The Go source (`lib.go`) is embedded shallowly:

* Bytes are modelled as `Nat`, byte slices as `List Nat`.
* The injected digest function `HashAlgorithm` is a parameter
  `List Nat → List Nat → List Nat` (salt, data ↦ digest).
* The fields of the Go `Reader` that the pure scanner `processData`
  consults (hash function, salt, digest set, window lengths, mask)
  are gathered in `RCfg`.
* `processData` contains a loop whose index does not advance when a
  window of length `0` matches (the Go code then loops forever).  The
  embedding therefore uses explicit fuel and returns `Option`; `none`
  encodes that divergence.  With fuel `data.length` the result is
  `some` exactly when the Go loop terminates.
-/

/-- Configuration visible to `Reader.processData` in `lib.go`:
the injected hash, the salt, the salted digests of the registered
secrets (`Reader.hashes`), the candidate window lengths
(`Reader.lengths`) and the mask token (`Options.Mask`). -/
structure RCfg where
  hash : List Nat → List Nat → List Nat
  salt : List Nat
  hashes : List (List Nat)
  lengths : List Nat
  mask : List Nat

/-- `Reader.hashMatch` (lib.go:319-326): linear scan of the digest set
with `bytes.Equal`. -/
def hashMatch (cfg : RCfg) (test : List Nat) : Bool :=
  cfg.hashes.any (fun h => h == test)

/-- The window `data[i : i+L]` examined by `processData`. -/
def window (data : List Nat) (i L : Nat) : List Nat :=
  (data.drop i).take L

/-- The test done for one candidate length in the inner loop of
`processData` (lib.go:291-296): the window must fit in the buffer and
its salted digest must be in the digest set. -/
def lenPred (cfg : RCfg) (data : List Nat) (i L : Nat) : Bool :=
  decide (i + L ≤ data.length) && hashMatch cfg (cfg.hash cfg.salt (window data i L))

/-- The inner loop of `processData` over `r.lengths` (lib.go:290-305):
the first length in list order that fits and whose window digest
matches, if any. -/
def findLen (cfg : RCfg) (data : List Nat) (i : Nat) : Option Nat :=
  cfg.lengths.find? (lenPred cfg data i)

/-- The outer loop of `Reader.processData` (lib.go:283-317), with the
loop index `i`, the last emit point `lastPos` and the accumulated
`result` made explicit, and fuel bounding the number of iterations.
On a match the pending unmatched bytes and the mask are appended and
both `i` and `lastPos` jump past the window; otherwise `i` advances by
one.  At the end the unmatched tail is flushed.  Fuel exhaustion with
`i < data.length` (`none`) corresponds to the Go loop iterating
forever, which happens exactly when a zero-length window matches. -/
def processDataAux (cfg : RCfg) (data : List Nat) :
    Nat → Nat → Nat → List Nat → Option (List Nat)
  | 0, i, lastPos, result =>
    if i < data.length then none
    else some (result ++ data.drop lastPos)
  | fuel + 1, i, lastPos, result =>
    if i < data.length then
      match findLen cfg data i with
      | some L =>
        processDataAux cfg data fuel (i + L) (i + L)
          (result ++ (data.drop lastPos).take (i - lastPos) ++ cfg.mask)
      | none => processDataAux cfg data fuel (i + 1) lastPos result
    else some (result ++ data.drop lastPos)

/-- `Reader.processData` (lib.go:283-317).  `data.length` fuel suffices
for every terminating run because each iteration advances `i` by at
least one except after a zero-length match, which never terminates. -/
def processData (cfg : RCfg) (data : List Nat) : Option (List Nat) :=
  processDataAux cfg data data.length 0 0 []

/-- The sequence of `(position, length)` spans that `processData`
masks, computed by the same scan.  Spec-side view of the scan used to
state boundary, disjointness and byte-preservation properties. -/
def scanSpansAux (cfg : RCfg) (data : List Nat) :
    Nat → Nat → Option (List (Nat × Nat))
  | 0, i => if i < data.length then none else some []
  | fuel + 1, i =>
    if i < data.length then
      match findLen cfg data i with
      | some L => (scanSpansAux cfg data fuel (i + L)).map (fun sp => (i, L) :: sp)
      | none => scanSpansAux cfg data fuel (i + 1)
    else some []

/-- The matched spans of a whole-buffer scan. -/
def scanSpans (cfg : RCfg) (data : List Nat) : Option (List (Nat × Nat)) :=
  scanSpansAux cfg data data.length 0

/-- Rebuild the output from the input and the matched spans: bytes
outside the spans are copied verbatim and in order, every span is
replaced by the mask. -/
def render (data mask : List Nat) : List (Nat × Nat) → Nat → List Nat
  | [], lastPos => data.drop lastPos
  | (p, L) :: sp, lastPos =>
    (data.drop lastPos).take (p - lastPos) ++ mask ++ render data mask sp (p + L)

/-- Well-formedness of a span list produced by scanning from position
`a`: spans sit inside the buffer in increasing order, every position
in a gap was tested and matched no length, every span position matched
exactly its recorded (positive) length, and spans are chained without
overlap. -/
def SpansOK (cfg : RCfg) (data : List Nat) : Nat → List (Nat × Nat) → Prop
  | a, [] => ∀ j < data.length, a ≤ j → findLen cfg data j = none
  | a, (p, L) :: sp =>
    a ≤ p ∧ p < data.length ∧ (∀ j < p, a ≤ j → findLen cfg data j = none) ∧
      findLen cfg data p = some L ∧ 0 < L ∧ SpansOK cfg data (p + L) sp

instance spansOKDecidable (cfg : RCfg) (data : List Nat) :
    ∀ (a : Nat) (sp : List (Nat × Nat)), Decidable (SpansOK cfg data a sp)
  | a, [] =>
    decidable_of_iff (∀ j < data.length, a ≤ j → findLen cfg data j = none) Iff.rfl
  | a, (p, L) :: sp =>
    have : Decidable (SpansOK cfg data (p + L) sp) := spansOKDecidable cfg data (p + L) sp
    decidable_of_iff
      (a ≤ p ∧ p < data.length ∧ (∀ j < p, a ≤ j → findLen cfg data j = none) ∧
        findLen cfg data p = some L ∧ 0 < L ∧ SpansOK cfg data (p + L) sp) Iff.rfl

/-- The accumulator-passing scan equals the span view followed by
rendering. -/
theorem processDataAux_eq_render (cfg : RCfg) (data : List Nat) :
    ∀ (fuel i lastPos : Nat) (result : List Nat),
      processDataAux cfg data fuel i lastPos result =
        (scanSpansAux cfg data fuel i).map
          (fun sp => result ++ render data cfg.mask sp lastPos) := by
  intro fuel
  induction fuel with
  | zero =>
    intro i lastPos result
    by_cases h : i < data.length <;> simp [processDataAux, scanSpansAux, h, render]
  | succ fuel ih =>
    intro i lastPos result
    by_cases h : i < data.length
    · cases hf : findLen cfg data i with
      | none =>
        simp only [processDataAux, scanSpansAux, h, if_pos, hf]
        exact ih (i + 1) lastPos result
      | some L =>
        simp only [processDataAux, scanSpansAux, h, if_pos, hf]
        rw [ih (i + L) (i + L)]
        cases scanSpansAux cfg data fuel (i + L) <;>
          simp [render, List.append_assoc]
    · simp [processDataAux, scanSpansAux, h, render]

/-- `processData` is the rendering of its matched spans. -/
theorem processData_eq_render (cfg : RCfg) (data : List Nat) :
    processData cfg data =
      (scanSpans cfg data).map (fun sp => render data cfg.mask sp 0) := by
  have h := processDataAux_eq_render cfg data data.length 0 0 []
  simpa [processData, scanSpans] using h

/-- A zero-length match pins the scan at `i` forever: the Go loop does
not terminate, so every fuel is exhausted. -/
theorem scanSpansAux_zero_match (cfg : RCfg) (data : List Nat) {i : Nat}
    (hi : i < data.length) (h0 : findLen cfg data i = some 0) :
    ∀ fuel, scanSpansAux cfg data fuel i = none := by
  intro fuel
  induction fuel with
  | zero => simp [scanSpansAux, hi]
  | succ fuel ih => simp [scanSpansAux, hi, h0, ih]

/-- Extending a gap by one freshly tested position. -/
theorem SpansOK_extend (cfg : RCfg) (data : List Nat) {i : Nat}
    (hnone : findLen cfg data i = none) :
    ∀ sp, SpansOK cfg data (i + 1) sp → SpansOK cfg data i sp := by
  intro sp h
  cases sp with
  | nil =>
    intro j hj hij
    rcases Nat.eq_or_lt_of_le hij with rfl | hlt
    · exact hnone
    · exact h j hj hlt
  | cons q sp =>
    obtain ⟨h1, h2, h3, h4, h5, h6⟩ := h
    refine ⟨by omega, h2, ?_, h4, h5, h6⟩
    intro j hj hij
    rcases Nat.eq_or_lt_of_le hij with rfl | hlt
    · exact hnone
    · exact h3 j hj hlt

/-- Every span list the scan returns is well formed. -/
theorem scanSpansAux_spansOK (cfg : RCfg) (data : List Nat) :
    ∀ (fuel i : Nat) (sp : List (Nat × Nat)),
      scanSpansAux cfg data fuel i = some sp → SpansOK cfg data i sp := by
  intro fuel
  induction fuel with
  | zero =>
    intro i sp h
    by_cases hi : i < data.length <;> simp [scanSpansAux, hi] at h
    subst h
    intro j hj hij
    omega
  | succ fuel ih =>
    intro i sp h
    by_cases hi : i < data.length
    · cases hf : findLen cfg data i with
      | none =>
        simp only [scanSpansAux, hi, if_pos, hf] at h
        exact SpansOK_extend cfg data hf sp (ih (i + 1) sp h)
      | some L =>
        simp only [scanSpansAux, hi, if_pos, hf] at h
        cases hs : scanSpansAux cfg data fuel (i + L) with
        | none => simp [hs] at h
        | some sp' =>
          simp only [hs, Option.map_some'] at h
          have h' := Option.some.inj h
          subst h'
          have hL : 0 < L := by
            rcases Nat.eq_zero_or_pos L with rfl | hpos
            · have := scanSpansAux_zero_match cfg data hi hf fuel
              rw [Nat.add_zero] at hs
              simp [this] at hs
            · exact hpos
          exact ⟨Nat.le_refl i, hi, fun j hj hij => by omega, hf, hL,
            ih (i + L) sp' hs⟩
    · simp [scanSpansAux, hi] at h
      subst h
      intro j hj hij
      omega

/-- `s` occurs as a contiguous run of bytes inside `l`. -/
def occursIn (s l : List Nat) : Prop :=
  ∃ i, i + s.length ≤ l.length ∧ (l.drop i).take s.length = s

instance occursInDecidable (s l : List Nat) : Decidable (occursIn s l) :=
  decidable_of_iff
    (∃ i < l.length + 1, i + s.length ≤ l.length ∧ (l.drop i).take s.length = s)
    (by
      constructor
      · rintro ⟨i, _, h1, h2⟩
        exact ⟨i, h1, h2⟩
      · rintro ⟨i, h1, h2⟩
        exact ⟨i, by omega, h1, h2⟩)

theorem occursIn_subset {s l : List Nat} (h : occursIn s l) : ∀ b ∈ s, b ∈ l := by
  rcases h with ⟨i, _, heq⟩
  intro b hb
  rw [← heq] at hb
  exact List.drop_subset i l (List.take_subset _ _ hb)

theorem mem_of_head?_eq {l : List Nat} {b : Nat} (h : l.head? = some b) : b ∈ l := by
  cases l with
  | nil => simp at h
  | cons x xs =>
    simp at h
    subst h
    exact List.mem_cons_self x xs

theorem head?_take_pos {l : List Nat} {k : Nat} (hk : 0 < k) :
    (l.take k).head? = l.head? := by
  cases l with
  | nil => simp
  | cons x xs =>
    cases k with
    | zero => omega
    | succ k => simp

theorem head?_append_left {m r : List Nat} (hm : m ≠ []) :
    (m ++ r).head? = m.head? := by
  cases m with
  | nil => exact absurd rfl hm
  | cons x xs => simp

/-- Decomposition of an occurrence in a concatenation: the run lies in
the left part, lies in the right part, or straddles the seam as a
nonempty tail of the left part glued to a nonempty head of the right
part. -/
theorem occursIn_append {s a b : List Nat} (h : occursIn s (a ++ b)) :
    occursIn s a ∨ occursIn s b ∨
      ∃ s₁ s₂, s = s₁ ++ s₂ ∧ s₁ ≠ [] ∧ s₂ ≠ [] ∧
        (∃ j, a.drop j = s₁) ∧ b.take s₂.length = s₂ := by
  rcases h with ⟨i, hle, heq⟩
  rw [List.length_append] at hle
  rw [List.drop_append_eq_append_drop, List.take_append_eq_append_take] at heq
  by_cases h1 : i + s.length ≤ a.length
  · left
    refine ⟨i, h1, ?_⟩
    have hlen : ((a.drop i).take s.length).length = s.length := by
      simp [List.length_take, List.length_drop]
      omega
    have h2 : s.length - (a.drop i).length = 0 := by
      simp [List.length_drop]
      omega
    rw [h2, List.take_zero, List.append_nil] at heq
    exact heq
  · by_cases h3 : a.length ≤ i
    · right; left
      refine ⟨i - a.length, by omega, ?_⟩
      have h4 : a.drop i = [] := List.drop_eq_nil_of_le h3
      rw [h4] at heq
      simp at heq
      exact heq
    · right; right
      push_neg at h1 h3
      have h5 : (a.drop i).take s.length = a.drop i :=
        List.take_of_length_le (by simp [List.length_drop]; omega)
      rw [h5] at heq
      refine ⟨a.drop i, (b.drop (i - a.length)).take (s.length - (a.drop i).length),
        heq.symm, ?_, ?_, ⟨i, rfl⟩, ?_⟩
      · intro hnil
        have := congrArg List.length hnil
        simp [List.length_drop] at this
        omega
      · intro hnil
        have := congrArg List.length hnil
        simp [List.length_take, List.length_drop] at this
        omega
      · have h6 : i - a.length = 0 := by omega
        rw [h6, List.drop_zero]
        have h7 : (b.take (s.length - (a.drop i).length)).length
            = min (s.length - (a.drop i).length) b.length := by
          simp [List.length_take]
        rw [h7]
        rcases Nat.le_total (s.length - (a.drop i).length) b.length with hc | hc
        · rw [Nat.min_eq_left hc]
        · rw [Nat.min_eq_right hc, List.take_of_length_le (Nat.le_refl _),
            List.take_of_length_le hc]

/-- In a fully tested gap of the scan no registered secret occurs: had
it occurred, the scan would have matched its length there. -/
theorem no_occurs_in_gap (cfg : RCfg) (data s : List Nat)
    (hs : s ≠ []) (hlen : s.length ∈ cfg.lengths)
    (hh : hashMatch cfg (cfg.hash cfg.salt s) = true)
    {a p : Nat} (hp : p ≤ data.length)
    (hgap : ∀ j < p, a ≤ j → findLen cfg data j = none) :
    ¬ occursIn s ((data.drop a).take (p - a)) := by
  rintro ⟨i, hile, heq⟩
  have hslen : 0 < s.length := List.length_pos.2 hs
  have hplen : ((data.drop a).take (p - a)).length = min (p - a) (data.length - a) := by
    simp [List.length_take, List.length_drop]
  rw [hplen] at hile
  have hip : i + s.length ≤ p - a := le_trans hile (Nat.min_le_left _ _)
  have hwin : window data (a + i) s.length = s := by
    rw [List.drop_take, List.drop_drop, List.take_take,
      Nat.min_eq_left (show s.length ≤ p - a - i by omega)] at heq
    exact heq
  have hnone : findLen cfg data (a + i) = none := by
    apply hgap
    · omega
    · omega
  have hpred := List.find?_eq_none.1 hnone s.length hlen
  rw [lenPred, hwin] at hpred
  simp [hh, show a + i + s.length ≤ data.length by omega] at hpred

/-- Core no-leakage lemma: a nonempty registered secret sharing no
byte with the nonempty mask does not occur in the rendering of a
well-formed span list. -/
theorem render_clean (cfg : RCfg) (data s : List Nat)
    (hs : s ≠ []) (hlen : s.length ∈ cfg.lengths)
    (hh : hashMatch cfg (cfg.hash cfg.salt s) = true)
    (hmask : cfg.mask ≠ []) (hdisj : ∀ b ∈ s, b ∉ cfg.mask) :
    ∀ (sp : List (Nat × Nat)) (a : Nat), SpansOK cfg data a sp →
      ¬ occursIn s (render data cfg.mask sp a) := by
  intro sp
  induction sp with
  | nil =>
    intro a hSO hocc
    have hdrop : (data.drop a).take (data.length - a) = data.drop a := by
      rw [← List.length_drop, List.take_length]
    rw [render, ← hdrop] at hocc
    exact no_occurs_in_gap cfg data s hs hlen hh (Nat.le_refl _) hSO hocc
  | cons q sp ih =>
    obtain ⟨p, L⟩ := q
    intro a hSO hocc
    obtain ⟨hap, hpn, hgap, hfind, hL, hrest⟩ := hSO
    rw [render] at hocc
    rw [List.append_assoc] at hocc
    rcases occursIn_append hocc with hc | hc | hc
    · exact no_occurs_in_gap cfg data s hs hlen hh (Nat.le_of_lt hpn) hgap hc
    · rcases occursIn_append hc with hd | hd | hd
      · obtain ⟨b, hb⟩ := List.exists_mem_of_ne_nil s hs
        exact hdisj b hb (occursIn_subset hd b hb)
      · exact ih (p + L) hrest hd
      · obtain ⟨s₁, s₂, hsplit, h1, _, ⟨j, hj⟩, _⟩ := hd
        obtain ⟨b, hb⟩ := List.exists_mem_of_ne_nil s₁ h1
        have hbs : b ∈ s := by
          rw [hsplit]
          exact List.mem_append_left _ hb
        have hbm : b ∈ cfg.mask := by
          rw [← hj] at hb
          exact List.drop_subset _ _ hb
        exact hdisj b hbs hbm
    · obtain ⟨s₁, s₂, hsplit, _, h2, _, htake⟩ := hc
      have hh2 : 0 < s₂.length := List.length_pos.2 h2
      have hhead : s₂.head? = cfg.mask.head? := by
        rw [← htake, head?_take_pos hh2, head?_append_left hmask]
      obtain ⟨b, xs, hbx⟩ : ∃ b xs, cfg.mask = b :: xs := by
        cases hmm : cfg.mask with
        | nil => exact absurd hmm hmask
        | cons y ys => exact ⟨y, ys, rfl⟩
      have hm : cfg.mask.head? = some b := by rw [hbx]; rfl
      have hbm : b ∈ cfg.mask := mem_of_head?_eq hm
      have hbs2 : b ∈ s₂ := mem_of_head?_eq (by rw [hhead, hm])
      have hbs : b ∈ s := by
        rw [hsplit]
        exact List.mem_append_right _ hbs2
      exact hdisj b hbs hbm

/-- If the whole buffer scans without any match, the scan returns the
empty span list. -/
theorem scanSpansAux_of_all_none (cfg : RCfg) (l : List Nat)
    (hnone : ∀ j < l.length, findLen cfg l j = none) :
    ∀ fuel i, l.length ≤ fuel + i → scanSpansAux cfg l fuel i = some [] := by
  intro fuel
  induction fuel with
  | zero =>
    intro i hi
    simp only [scanSpansAux]
    rw [if_neg (by omega)]
  | succ fuel ih =>
    intro i hi
    by_cases hil : i < l.length
    · simp only [scanSpansAux, hil, if_pos, hnone i hil]
      exact ih (i + 1) (by omega)
    · simp [scanSpansAux, hil]

/-- Concrete scanner configuration refuting claim C2 as stated: the
identity digest (injective), the single registered secret `[97, 42]`
(`"a*"`), window length 2, mask `[42, 42]` (`"**"`). -/
def cfgC2x : RCfg := ⟨fun _ d => d, [], [[97, 42]], [2], [42, 42]⟩

/-- Claim C2, counterexample: with an injective digest function and the
registered secret `"a*"` (bytes `[97, 42]`) at the (only) candidate
length, input `"aa*"` (`[97, 97, 42]`) produces output `"a**"`
(`[97, 42, 42]`), and the secret's literal byte sequence occurs in that
output, straddling the copied byte `97` and the first mask byte: the
output can contain a registered secret when the secret shares bytes
with the mask. -/
theorem c2_counterexample :
    (∀ x y : List Nat, cfgC2x.hash cfgC2x.salt x = cfgC2x.hash cfgC2x.salt y → x = y) ∧
    hashMatch cfgC2x (cfgC2x.hash cfgC2x.salt [97, 42]) = true ∧
    [97, 42].length ∈ cfgC2x.lengths ∧
    processData cfgC2x [97, 97, 42] = some [97, 42, 42] ∧
    occursIn [97, 42] [97, 42, 42] :=
  ⟨fun _ _ h => h, by decide, by decide, by decide, by decide⟩

/-- Claim C2 (amended): for every input buffer and every nonempty
registered candidate secret (digest in the set, length among the
candidate lengths), if the mask token is nonempty and shares no byte
with the secret, then the output of a terminating `processData` run
never contains the secret's literal byte sequence.  No injectivity of
the digest is needed: collisions only cause additional masking. -/
theorem c2_no_leakage (cfg : RCfg) (data s out : List Nat)
    (hs : s ≠ []) (hlen : s.length ∈ cfg.lengths)
    (hh : hashMatch cfg (cfg.hash cfg.salt s) = true)
    (hmask : cfg.mask ≠ []) (hdisj : ∀ b ∈ s, b ∉ cfg.mask)
    (hout : processData cfg data = some out) :
    ¬ occursIn s out := by
  rw [processData_eq_render] at hout
  cases hsp : scanSpans cfg data with
  | none => rw [hsp] at hout; simp at hout
  | some sp =>
    rw [hsp] at hout
    simp only [Option.map_some'] at hout
    have hout' := Option.some.inj hout
    rw [← hout']
    exact render_clean cfg data s hs hlen hh hmask hdisj sp 0
      (scanSpansAux_spansOK cfg data data.length 0 sp hsp)

/-- Concrete scanner configuration for the C2 witness: registered
secret `[97, 98]`, mask `[42]`, disjoint bytes. -/
def cfgC2w : RCfg := ⟨fun _ d => d, [], [[97, 98]], [2], [42]⟩

theorem c2_witness :
    processData cfgC2w [97, 97, 98] = some [97, 42] ∧ ¬ occursIn [97, 98] [97, 42] :=
  ⟨by decide,
    c2_no_leakage cfgC2w [97, 97, 98] [97, 98] [97, 42] (by decide) (by decide)
      (by decide) (by decide) (by decide) (by decide)⟩

/-- Claim C4: the output of every terminating `processData` run is the
rendering of its well-formed matched-span list: bytes outside the
matched spans — line terminators and multi-byte sequences included —
are copied verbatim and in order, and every matched span is replaced
by the one fixed mask token `cfg.mask`, regardless of which digest or
length matched. -/
theorem c4_byte_preservation (cfg : RCfg) (data : List Nat) :
    processData cfg data =
      (scanSpans cfg data).map (fun sp => render data cfg.mask sp 0) ∧
    ∀ sp, scanSpans cfg data = some sp → SpansOK cfg data 0 sp :=
  ⟨processData_eq_render cfg data,
    fun sp h => scanSpansAux_spansOK cfg data data.length 0 sp h⟩

/-- Concrete scanner configuration for the C4 witness. -/
def cfgC4w : RCfg := ⟨fun _ d => d, [], [[97, 98]], [2], [42]⟩

theorem c4_witness :
    processData cfgC4w [97, 97, 98] =
      (scanSpans cfgC4w [97, 97, 98]).map (fun sp => render [97, 97, 98] cfgC4w.mask sp 0) ∧
    SpansOK cfgC4w [97, 97, 98] 0 [(1, 2)] :=
  ⟨(c4_byte_preservation cfgC4w [97, 97, 98]).1,
    (c4_byte_preservation cfgC4w [97, 97, 98]).2 [(1, 2)] (by decide)⟩

/-- Concrete scanner configuration refuting claim C6 as stated. -/
def cfgC6x : RCfg := ⟨fun _ d => d, [], [[97, 42]], [2], [42, 42]⟩

/-- Claim C6, counterexample: the digest is the identity (injective),
the only registered secret is `"a*"` (`[97, 42]`) and the mask `"**"`
(`[42, 42]`) is not a registered secret, yet the transform is not
idempotent: `"aa*"` maps to `"a**"`, and rescanning `"a**"` finds the
fresh occurrence of `"a*"` created next to the inserted mask and maps
it to `"***"`. -/
theorem c6_counterexample :
    cfgC6x.mask ≠ [97, 42] ∧
    cfgC6x.hashes = [cfgC6x.hash cfgC6x.salt [97, 42]] ∧
    (∀ x y : List Nat, cfgC6x.hash cfgC6x.salt x = cfgC6x.hash cfgC6x.salt y → x = y) ∧
    processData cfgC6x [97, 97, 42] = some [97, 42, 42] ∧
    processData cfgC6x [97, 42, 42] = some [42, 42, 42] ∧
    ([42, 42, 42] : List Nat) ≠ [97, 42, 42] :=
  ⟨by decide, by decide, fun _ _ h => h, by decide, by decide, by decide⟩

/-- Claim C6 (amended): the transform is idempotent on its own output
provided the digest function is injective for the given salt, every
registered digest is the digest of some nonempty secret whose length
is among the candidate lengths and whose bytes are disjoint from the
(nonempty) mask token.  Under these hypotheses a second `processData`
pass finds no match in the first pass's output and returns it
unchanged. -/
theorem c6_idempotent (cfg : RCfg) (data out : List Nat)
    (hinj : ∀ x y : List Nat, cfg.hash cfg.salt x = cfg.hash cfg.salt y → x = y)
    (hsec : ∀ d ∈ cfg.hashes, ∃ s : List Nat, cfg.hash cfg.salt s = d ∧
      s.length ∈ cfg.lengths ∧ s ≠ [] ∧ ∀ b ∈ s, b ∉ cfg.mask)
    (hmask : cfg.mask ≠ [])
    (hout : processData cfg data = some out) :
    processData cfg out = some out := by
  -- structure of the first pass's output
  rw [processData_eq_render] at hout
  obtain ⟨sp, hsp, hrender⟩ : ∃ sp, scanSpans cfg data = some sp ∧
      render data cfg.mask sp 0 = out := by
    cases hsp : scanSpans cfg data with
    | none => rw [hsp] at hout; simp at hout
    | some sp =>
      rw [hsp] at hout
      simp only [Option.map_some'] at hout
      exact ⟨sp, rfl, Option.some.inj hout⟩
  have hSO := scanSpansAux_spansOK cfg data data.length 0 sp hsp
  -- the second pass finds no match anywhere in the output
  have hnone : ∀ j < out.length, findLen cfg out j = none := by
    intro j hj
    cases hfl : findLen cfg out j with
    | none => rfl
    | some L =>
      exfalso
      have hLmem : L ∈ cfg.lengths := List.mem_of_find?_eq_some hfl
      have hp := List.find?_some hfl
      rw [lenPred] at hp
      have hfit : j + L ≤ out.length := by
        by_contra hc
        simp [hc] at hp
      have hmatch : hashMatch cfg (cfg.hash cfg.salt (window out j L)) = true := by
        simp [hfit] at hp
        exact hp
      rw [hashMatch, List.any_eq_true] at hmatch
      obtain ⟨d, hd, hdw⟩ := hmatch
      rw [beq_iff_eq] at hdw
      obtain ⟨s, hshash, hslen, hsne, hsdisj⟩ := hsec d hd
      have hws : window out j L = s := hinj _ _ (by rw [← hdw, hshash])
      have hwlen : (window out j L).length = L := by
        simp [window, List.length_take, List.length_drop]
        omega
      have hsL : s.length = L := by rw [← hws, hwlen]
      have hocc : occursIn s out := by
        refine ⟨j, by omega, ?_⟩
        rw [hsL]
        exact hws
      have hshm : hashMatch cfg (cfg.hash cfg.salt s) = true := by
        rw [hashMatch, List.any_eq_true]
        exact ⟨d, hd, by rw [beq_iff_eq, hshash]⟩
      rw [← hrender] at hocc
      exact render_clean cfg data s hsne (by rw [hsL]; exact hLmem) hshm hmask
        hsdisj sp 0 hSO hocc
  -- hence the second pass copies its input verbatim
  rw [processData_eq_render, scanSpans,
    scanSpansAux_of_all_none cfg out hnone out.length 0 (by omega)]
  simp [render]

/-- Concrete scanner configuration for the C6 witness. -/
def cfgC6w : RCfg := ⟨fun _ d => d, [], [[97, 98]], [2], [42]⟩

theorem c6_witness : processData cfgC6w [97, 42] = some [97, 42] :=
  c6_idempotent cfgC6w [97, 97, 98] [97, 42] (fun _ _ h => h)
    (by
      intro d hd
      simp only [cfgC6w, List.mem_singleton] at hd
      subst hd
      exact ⟨[97, 98], rfl, by decide, by decide, by decide⟩)
    (by decide) (by decide)

/-- Maximum of a list of naturals, `none` on the empty list. -/
def maxOf? : List Nat → Option Nat
  | [] => none
  | a :: l =>
    match maxOf? l with
    | none => some a
    | some b => some (max a b)

theorem maxOf?_mem : ∀ {l : List Nat} {b : Nat}, maxOf? l = some b → b ∈ l := by
  intro l
  induction l with
  | nil => intro b h; simp [maxOf?] at h
  | cons a t ih =>
    intro b h
    simp only [maxOf?] at h
    cases hm : maxOf? t with
    | none =>
      rw [hm] at h
      simp at h
      subst h
      exact List.mem_cons_self a t
    | some c =>
      rw [hm] at h
      simp at h
      subst h
      rcases Nat.le_total a c with hc | hc
      · rw [Nat.max_eq_right hc]
        exact List.mem_cons_of_mem a (ih hm)
      · rw [Nat.max_eq_left hc]
        exact List.mem_cons_self a t

/-- On a descending-sorted list, the first element satisfying a
predicate is the maximum element satisfying it. -/
theorem sorted_find?_eq_maxOf?_filter (p : Nat → Bool) :
    ∀ l : List Nat, List.Sorted (· ≥ ·) l → l.find? p = maxOf? (l.filter p) := by
  intro l
  induction l with
  | nil => intro _; simp [maxOf?]
  | cons a t ih =>
    intro hsort
    have ha := (List.sorted_cons.1 hsort).1
    have ht := (List.sorted_cons.1 hsort).2
    by_cases hp : p a
    · rw [List.find?_cons_of_pos _ hp, List.filter_cons_of_pos hp]
      simp only [maxOf?]
      cases hm : maxOf? (t.filter p) with
      | none => rfl
      | some c =>
        have hct : c ∈ t := List.mem_of_mem_filter (maxOf?_mem hm)
        show some a = some (max a c)
        rw [Nat.max_eq_left (ha c hct)]
    · rw [List.find?_cons_of_neg _ hp, List.filter_cons_of_neg hp]
      exact ih ht

/-- Spec-side choice at a position, written from the spec's words:
among the candidate lengths that fit and whose window digest is in the
digest set, the longest one (trying lengths in descending order and
taking the first hit selects exactly this maximum). -/
def specFind (cfg : RCfg) (data : List Nat) (i : Nat) : Option Nat :=
  maxOf? (cfg.lengths.filter (lenPred cfg data i))

/-- With the lengths sorted descending — as `NewReader` establishes
(lib.go:90) — the code's first-hit scan over the list picks the
longest matching length. -/
theorem findLen_eq_specFind (cfg : RCfg) (data : List Nat)
    (hs : List.Sorted (· ≥ ·) cfg.lengths) (i : Nat) :
    findLen cfg data i = specFind cfg data i :=
  sorted_find?_eq_maxOf?_filter _ cfg.lengths hs

/-- Spec-side scanner modelled from the spec's words (§4.2): a single
left-to-right pass; at each position take the longest matching length,
emit the mask and resume at `i + length`; with no match emit the byte
and advance by one; flush nothing extra at the end. -/
def greedyAux (cfg : RCfg) (data : List Nat) : Nat → Nat → Option (List Nat)
  | 0, i => if i < data.length then none else some []
  | fuel + 1, i =>
    if i < data.length then
      match specFind cfg data i with
      | some L => (greedyAux cfg data fuel (i + L)).map (fun rest => cfg.mask ++ rest)
      | none => (greedyAux cfg data fuel (i + 1)).map (fun rest => (data.drop i).take 1 ++ rest)
    else some []

/-- The spec-side greedy longest-match transform of a whole buffer. -/
def greedySpecData (cfg : RCfg) (data : List Nat) : Option (List Nat) :=
  greedyAux cfg data data.length 0

theorem take_one_split (l : List Nat) (k : Nat) :
    l.take (k + 1) = l.take 1 ++ (l.drop 1).take k := by
  cases l <;> simp

/-- Peeling one unmatched byte off a rendering. -/
theorem render_step (cfg : RCfg) (data : List Nat) {i : Nat} (_hi : i < data.length) :
    ∀ sp, SpansOK cfg data (i + 1) sp →
      render data cfg.mask sp i = (data.drop i).take 1 ++ render data cfg.mask sp (i + 1) := by
  intro sp hSO
  cases sp with
  | nil =>
    show data.drop i = (data.drop i).take 1 ++ data.drop (i + 1)
    conv_lhs => rw [← List.take_append_drop 1 (data.drop i)]
    rw [List.drop_drop]
  | cons q sp =>
    obtain ⟨p, L⟩ := q
    obtain ⟨hip, _, _, _, _, _⟩ := hSO
    show (data.drop i).take (p - i) ++ cfg.mask ++ _ =
      (data.drop i).take 1 ++ ((data.drop (i + 1)).take (p - (i + 1)) ++ cfg.mask ++ _)
    have hk : p - i = (p - (i + 1)) + 1 := by omega
    rw [hk, take_one_split, List.drop_drop]
    simp [List.append_assoc]

/-- With descending lengths the spec-side greedy scanner renders the
same spans as the code's scan. -/
theorem greedyAux_eq_render (cfg : RCfg) (data : List Nat)
    (hs : List.Sorted (· ≥ ·) cfg.lengths) :
    ∀ fuel i, greedyAux cfg data fuel i =
      (scanSpansAux cfg data fuel i).map (fun sp => render data cfg.mask sp i) := by
  intro fuel
  induction fuel with
  | zero =>
    intro i
    by_cases h : i < data.length <;>
      simp [greedyAux, scanSpansAux, h, render, List.drop_eq_nil_of_le]
    omega
  | succ fuel ih =>
    intro i
    by_cases h : i < data.length
    · cases hf : findLen cfg data i with
      | some L =>
        have hsf : specFind cfg data i = some L := by
          rw [← findLen_eq_specFind cfg data hs]; exact hf
        simp only [greedyAux, scanSpansAux, h, if_pos, hf, hsf]
        rw [ih (i + L)]
        cases hsc : scanSpansAux cfg data fuel (i + L) with
        | none => simp
        | some sp => simp [render]
      | none =>
        have hsf : specFind cfg data i = none := by
          rw [← findLen_eq_specFind cfg data hs]; exact hf
        simp only [greedyAux, scanSpansAux, h, if_pos, hf, hsf]
        rw [ih (i + 1)]
        cases hsc : scanSpansAux cfg data fuel (i + 1) with
        | none => simp
        | some sp =>
          have hSO := scanSpansAux_spansOK cfg data fuel (i + 1) sp hsc
          simp [render_step cfg data h sp hSO]
    · simp [greedyAux, scanSpansAux, h, render, List.drop_eq_nil_of_le (Nat.le_of_not_lt h)]

/-- Every span starts at or after the scan origin. -/
theorem spansOK_lb (cfg : RCfg) (data : List Nat) :
    ∀ (sp : List (Nat × Nat)) (a : Nat), SpansOK cfg data a sp → ∀ q ∈ sp, a ≤ q.1 := by
  intro sp
  induction sp with
  | nil => intro a _ q hq; simp at hq
  | cons r sp ih =>
    obtain ⟨p, L⟩ := r
    intro a hSO q hq
    obtain ⟨hap, _, _, _, _, hrest⟩ := hSO
    rcases List.mem_cons.1 hq with rfl | hq'
    · exact hap
    · exact le_trans (by omega) (ih (p + L) hrest q hq')

/-- The matched spans of one scan pass are pairwise disjoint: each
span ends at or before the start of every later span. -/
theorem spansOK_pairwise (cfg : RCfg) (data : List Nat) :
    ∀ (sp : List (Nat × Nat)) (a : Nat), SpansOK cfg data a sp →
      List.Pairwise (fun q r => q.1 + q.2 ≤ r.1) sp := by
  intro sp
  induction sp with
  | nil => intro a _; exact List.Pairwise.nil
  | cons r sp ih =>
    obtain ⟨p, L⟩ := r
    intro a hSO
    obtain ⟨_, _, _, _, _, hrest⟩ := hSO
    exact List.Pairwise.cons (fun q hq => spansOK_lb cfg data sp (p + L) hrest q hq)
      (ih (p + L) hrest)

/-- Claim C3: with the candidate lengths sorted descending (as
`NewReader` guarantees, lib.go:90), the scan at every position picks
the longest matching candidate length (first hit in descending order),
the whole transform equals the spec-side greedy longest-match scanner
that resumes at `i + length` after a match and advances one byte
otherwise, and the matched spans of a pass are pairwise disjoint and
non-overlapping. -/
theorem c3_greedy_longest_match (cfg : RCfg) (data : List Nat)
    (hs : List.Sorted (· ≥ ·) cfg.lengths) :
    (∀ i, findLen cfg data i = specFind cfg data i) ∧
    processData cfg data = greedySpecData cfg data ∧
    ∀ sp, scanSpans cfg data = some sp →
      List.Pairwise (fun q r => q.1 + q.2 ≤ r.1) sp := by
  refine ⟨findLen_eq_specFind cfg data hs, ?_, ?_⟩
  · rw [processData_eq_render, greedySpecData, greedyAux_eq_render cfg data hs, scanSpans]
  · intro sp h
    exact spansOK_pairwise cfg data sp 0 (scanSpansAux_spansOK cfg data data.length 0 sp h)

/-- Concrete scanner configuration for the C3 witness. -/
def cfgC3w : RCfg := ⟨fun _ d => d, [], [[97, 98]], [3, 2], [42]⟩

theorem c3_witness :
    processData cfgC3w [97, 97, 98] = greedySpecData cfgC3w [97, 97, 98] :=
  (c3_greedy_longest_match cfgC3w [97, 97, 98] (by decide)).2.1

/-- `strings.Trim(value, "\n")` (lib.go:66) on byte lists: strip
leading and trailing newline bytes (10). -/
def trimNL (v : List Nat) : List Nat :=
  ((v.dropWhile (· == 10)).reverse.dropWhile (· == 10)).reverse

/-- `ValuesToArgs` (lib.go:61-83): trim each candidate, hash it, and
collect the deduplicated digests and the deduplicated candidate
lengths sorted descending.  Go deduplicates through maps whose
iteration order is unspecified; the model fixes the order with
`List.dedup`, which preserves membership — the only property the
scanner consults. -/
def ValuesToArgs (hashFn : List Nat → List Nat → List Nat) (salt : List Nat)
    (values : List (List Nat)) : List (List Nat) × List Nat :=
  let ts := values.map trimNL
  ((ts.map (hashFn salt)).dedup,
    ((ts.map List.length).dedup).insertionSort (· ≥ ·))

/-- Concrete configuration for the C7 counterexample: the index built
by `ValuesToArgs` from the single one-byte candidate `"d"` (`[100]`),
identity digest, mask `[42, 42]`. -/
def cfgC7x : RCfg := ⟨fun _ d => d, [], [[100]], [1], [42, 42]⟩

/-- Claim C7, counterexample: `ValuesToArgs` applies no minimum-length
filter — the one-byte candidate `"d"` is hashed and its length `1`
indexed (the repository's own tests treat lengths below 4 as "too
short" and filter them at the call site) — and with the resulting
index the short secret is masked, not passed through: input `"ed"`
(`[101, 100]`) becomes `[101, 42, 42]`, not the unchanged input. -/
theorem c7_counterexample :
    ValuesToArgs (fun _ d => d) [] [[100]] = ([[100]], [1]) ∧
    processData cfgC7x [101, 100] = some [101, 42, 42] ∧
    ([101, 42, 42] : List Nat) ≠ [101, 100] :=
  ⟨by decide, by decide, by decide⟩

/-- Claim C7 (amended): `ValuesToArgs` excludes nothing: every
candidate value, however short, has its (trimmed) digest inserted in
the digest set and its (trimmed) length recorded among the window
lengths.  Exclusion of candidates below a minimum length is the
caller's responsibility, before `ValuesToArgs`; an unfiltered short
candidate is masked by the transform rather than passed through. -/
theorem c7_no_minimum_length_filter (hashFn : List Nat → List Nat → List Nat)
    (salt : List Nat) (values : List (List Nat)) (v : List Nat) (hv : v ∈ values) :
    hashFn salt (trimNL v) ∈ (ValuesToArgs hashFn salt values).1 ∧
    (trimNL v).length ∈ (ValuesToArgs hashFn salt values).2 := by
  have h1 : trimNL v ∈ values.map trimNL := List.mem_map_of_mem trimNL hv
  constructor
  · exact List.mem_dedup.2 (List.mem_map_of_mem (hashFn salt) h1)
  · show (trimNL v).length ∈ ((values.map trimNL).map List.length).dedup.insertionSort (· ≥ ·)
    rw [(List.perm_insertionSort (· ≥ ·) _).mem_iff]
    exact List.mem_dedup.2 (List.mem_map_of_mem List.length h1)

theorem c7_witness :
    (fun (_ d : List Nat) => d) [] (trimNL [100]) ∈ (ValuesToArgs (fun _ d => d) [] [[100]]).1 ∧
    (trimNL [100]).length ∈ (ValuesToArgs (fun _ d => d) [] [[100]]).2 :=
  c7_no_minimum_length_filter (fun _ d => d) [] [[100]] [100] (by decide)

/-- The configuration of a constructed stream transform (the fields of
the Go `Reader` beyond the scanner configuration): `maxLength` is the
largest window length (lib.go:107), `chunkSize` is fixed at 32 KiB
(lib.go:108), `capacity` is the worker count, which is also the
capacity of the work and result channels (lib.go:109-112). -/
structure PCfg where
  core : RCfg
  maxLength : Nat
  chunkSize : Nat
  capacity : Nat

/-- What `NewReader` returns on success: the unmodified source itself
(pass-through) or a new stream transform. -/
inductive NRResult
  | passthrough
  | reader (cfg : PCfg)

/-- `ErrorInvalidLengths` (lib.go:25). -/
def errInvalidLengths : String := "invalid window lengths"

/-- `Options` (lib.go:19-23) without the hash field, which `NewReader`
threads into the scanner configuration.  In Go a non-positive
`NumWorkers` is replaced by `runtime.NumCPU()`; the model writes the
unset case as `0`. -/
structure ROptions where
  mask : List Nat
  numWorkers : Nat

/-- `NewReader` (lib.go:85-127).  `numCPU` stands for
`runtime.NumCPU()`, which Go guarantees to be at least 1.  An empty
digest set returns the source unchanged (lib.go:86-88); the lengths
are sorted descending (lib.go:90); an empty length list or a zero
maximum is `ErrorInvalidLengths` (lib.go:91-93); otherwise the reader
is built with `maxLength = lengths[0]` and 32 KiB chunks. -/
def NewReader (numCPU : Nat) (hashFn : List Nat → List Nat → List Nat)
    (salt : List Nat) (hashes : List (List Nat)) (lengths : List Nat)
    (opts : ROptions) : Except String NRResult :=
  if hashes.isEmpty then .ok .passthrough
  else
    match lengths.insertionSort (· ≥ ·) with
    | [] => .error errInvalidLengths
    | l0 :: tl =>
      if l0 = 0 then .error errInvalidLengths
      else
        .ok (.reader ⟨⟨hashFn, salt, hashes, l0 :: tl, opts.mask⟩, l0, 32 * 1024,
          if opts.numWorkers = 0 then numCPU else opts.numWorkers⟩)

/-- Every constructed reader carries its window lengths sorted
descending — the hypothesis of the greedy-longest-match theorem. -/
theorem newReader_lengths_sorted (numCPU : Nat)
    (hashFn : List Nat → List Nat → List Nat) (salt : List Nat)
    (hashes : List (List Nat)) (lengths : List Nat) (opts : ROptions) (cfg : PCfg)
    (h : NewReader numCPU hashFn salt hashes lengths opts = .ok (.reader cfg)) :
    List.Sorted (· ≥ ·) cfg.core.lengths := by
  rw [NewReader] at h
  by_cases he : hashes.isEmpty
  · simp [he] at h
  · simp only [he, Bool.false_eq_true, if_false] at h
    cases hsort : lengths.insertionSort (· ≥ ·) with
    | nil => rw [hsort] at h; simp at h
    | cons l0 tl =>
      rw [hsort] at h
      by_cases h0 : l0 = 0
      · simp [h0] at h
      · simp only [h0, if_false] at h
        have h' := Except.ok.inj h
        have h'' : cfg = ⟨⟨hashFn, salt, hashes, l0 :: tl, opts.mask⟩, l0, 32 * 1024,
            if opts.numWorkers = 0 then numCPU else opts.numWorkers⟩ := by
          cases h'
          rfl
        rw [h'']
        rw [← hsort]
        exact List.sorted_insertionSort _ _

/-- Claim C9: an empty digest set makes `NewReader` return the
unmodified underlying source itself, with no error, whatever the
lengths and options: a pass-through whose output stream is the input
stream. -/
theorem c9_empty_passthrough (numCPU : Nat)
    (hashFn : List Nat → List Nat → List Nat) (salt : List Nat)
    (lengths : List Nat) (opts : ROptions) :
    NewReader numCPU hashFn salt [] lengths opts = .ok .passthrough := rfl

/-- Claim C8: given a non-empty digest set, `NewReader` fails with
`ErrorInvalidLengths` — returning no reader — exactly when the length
list is empty or its maximum is zero (over naturals: when every
element is zero); otherwise it returns a constructed reader. -/
theorem c8_invalid_lengths (numCPU : Nat)
    (hashFn : List Nat → List Nat → List Nat) (salt : List Nat)
    (hashes : List (List Nat)) (lengths : List Nat) (opts : ROptions)
    (h : hashes ≠ []) :
    (NewReader numCPU hashFn salt hashes lengths opts = .error errInvalidLengths
      ↔ ∀ L ∈ lengths, L = 0) ∧
    ((∃ L ∈ lengths, L ≠ 0) →
      ∃ cfg, NewReader numCPU hashFn salt hashes lengths opts = .ok (.reader cfg)) := by
  have he : hashes.isEmpty = false := by
    cases hashes with
    | nil => exact absurd rfl h
    | cons a l => rfl
  rw [NewReader]
  simp only [he, Bool.false_eq_true, if_false]
  cases hsort : lengths.insertionSort (· ≥ ·) with
  | nil =>
    have hlen : lengths = [] := by
      have hperm := List.perm_insertionSort (· ≥ ·) lengths
      rw [hsort] at hperm
      exact (List.Perm.nil_eq hperm).symm
    subst hlen
    refine ⟨⟨fun _ => by simp, fun _ => rfl⟩, ?_⟩
    rintro ⟨L, hL, _⟩
    simp at hL
  | cons l0 tl =>
    have hperm := List.perm_insertionSort (· ≥ ·) lengths
    rw [hsort] at hperm
    have hsorted : List.Sorted (· ≥ ·) (l0 :: tl) := by
      rw [← hsort]
      exact List.sorted_insertionSort _ _
    have hmem : ∀ L ∈ lengths, L ∈ l0 :: tl := fun L hL => hperm.mem_iff.2 hL
    by_cases h0 : l0 = 0
    · subst h0
      simp only [if_pos rfl]
      refine ⟨⟨fun _ L hL => ?_, fun _ => rfl⟩, ?_⟩
      · rcases List.mem_cons.1 (hmem L hL) with rfl | hLtl
        · rfl
        · have := (List.sorted_cons.1 hsorted).1 L hLtl
          omega
      · rintro ⟨L, hL, hLne⟩
        exfalso
        rcases List.mem_cons.1 (hmem L hL) with rfl | hLtl
        · exact hLne rfl
        · have := (List.sorted_cons.1 hsorted).1 L hLtl
          omega
    · simp only [h0, if_false]
      have hl0 : l0 ∈ lengths := hperm.mem_iff.1 (List.mem_cons_self l0 tl)
      refine ⟨⟨fun hc => by simp at hc, fun hall => absurd (hall l0 hl0) h0⟩, ?_⟩
      intro _
      exact ⟨_, rfl⟩

theorem c8_witness :
    NewReader 4 (fun _ d => d) [] [[7]] [0, 0] ⟨[42], 0⟩ = Except.error errInvalidLengths :=
  (c8_invalid_lengths 4 (fun _ d => d) [] [[7]] [0, 0] ⟨[42], 0⟩ (by decide)).1.mpr
    (by decide)

/-- A unit of pipeline work before processing (`chunk`, lib.go:48-54):
sequence id, raw data, trailing overlap borrowed from the stream, and
the final-chunk flag. -/
structure WChunk where
  id : Nat
  data : List Nat
  overlap : List Nat
  isLast : Bool

/-- A processed chunk as deposited on the result channel. -/
structure RChunk where
  id : Nat
  result : List Nat
  isLast : Bool

/-- The mutable state of a `Reader` (lib.go:27-46) under the
single-reader discipline: the unread remainder of the underlying
source, the output buffer `r.buffer`, the contents of the bounded work
and result channels, the reassembly map `r.pending` (as an association
list), the next chunk id, and the atomic closed flag. -/
structure RState where
  src : List Nat
  buffer : List Nat
  workQueue : List WChunk
  resultQueue : List RChunk
  pending : List (Nat × RChunk)
  nextChunk : Nat
  closed : Bool

/-- The errors a modelled `Read` can surface: `io.EOF`, the
`"work channel full"` error (lib.go:242), and `hang` for a call that
never returns (a diverging worker or a receive that nothing will ever
satisfy). -/
inductive RErr
  | eof
  | workFull
  | hang
  deriving DecidableEq

/-- A fresh reader over the given source bytes. -/
def initR (src : List Nat) : RState :=
  ⟨src, [], [], [], [], 0, false⟩

/-- `Reader.Close` (lib.go:153-187) as it affects the modelled state:
idempotent via the closed flag; drains and closes the channels, clears
the pending map and resets the id counter.  The output buffer is not
cleared. -/
def closeR (st : RState) : RState :=
  if st.closed then st
  else { st with
    closed := true, workQueue := [], resultQueue := [], pending := [], nextChunk := 0 }

/-- One worker processing one chunk (`worker.run`, lib.go:139-143):
scan `chunk.data ++ chunk.overlap`; for a non-final chunk with a
nonempty result, reslice the result to `len(chunk.data)`.  When masking
shortened the result, Go's reslicing widens it past its logical length
into the backing array (zero-initialised by `make`), so the model pads
with zero bytes.  `none` is a worker that never finishes because the
scan diverges. -/
def workerOne (cfg : PCfg) (c : WChunk) : Option RChunk :=
  (processData cfg.core (c.data ++ c.overlap)).map (fun res =>
    if !c.isLast && res != [] then
      ⟨c.id, (res ++ List.replicate c.data.length 0).take c.data.length, c.isLast⟩
    else ⟨c.id, res, c.isLast⟩)

/-- The worker pool drains the work channel in order, depositing one
result per chunk. -/
def runWorkersAux (cfg : PCfg) : List WChunk → Option (List RChunk)
  | [] => some []
  | c :: cs =>
    (workerOne cfg c).bind fun r => (runWorkersAux cfg cs).map (fun rs => r :: rs)

def runWorkers (cfg : PCfg) (st : RState) : Option RState :=
  (runWorkersAux cfg st.workQueue).map (fun rs =>
    { st with workQueue := [], resultQueue := st.resultQueue ++ rs })

/-- The flush loop of `processResults` (lib.go:262-280): repeatedly
look up the pending chunk keyed by `len(buffer) / chunkSize`, append
its result to the buffer, delete it from the map, and close the reader
after flushing the final chunk.  Fuel bounds the iterations; each one
removes a pending entry, so `pending.length + 1` always suffices. -/
def flushLoop (cfg : PCfg) : Nat → RState → RState
  | 0, st => st
  | fuel + 1, st =>
    match st.pending.lookup (st.buffer.length / cfg.chunkSize) with
    | none => st
    | some c =>
      let st' := { st with
        buffer := st.buffer ++ c.result,
        pending := st.pending.filter (fun e => e.1 != c.id) }
      if c.isLast then closeR st' else flushLoop cfg fuel st'

/-- `Reader.processResults` (lib.go:248-281) under the single-reader
discipline: a closed reader reports EOF; otherwise the blocking
receive takes the first deposited result — with nothing on the result
channel and no work in flight it would block forever (`hang`) — stores
it in the pending map and runs the flush loop. -/
def processResults (cfg : PCfg) (st : RState) : Option RErr × RState :=
  if st.closed then (some .eof, st)
  else
    match st.resultQueue with
    | [] => (some .hang, st)
    | r :: rest =>
      let st' := { st with resultQueue := rest, pending := (r.id, r) :: st.pending }
      (none, flushLoop cfg (st'.pending.length + 1) st')

/-- `Reader.processNextChunk` (lib.go:208-246).  `io.ReadFull` on the
model source cannot fail, so its outcomes are: full chunk, short chunk
with `ErrUnexpectedEOF`, or nothing with `EOF` (then the call returns
EOF).  The overlap read then consumes up to `maxLength` further bytes
from the source.  The chunk is sent with a non-blocking send that
fails with the work-channel-full error when the bounded channel is at
capacity.  The worker pool is run between the send and the blocking
receive: the receive blocks until a worker has deposited a result and
workers only move chunks from the work channel to the result channel,
so under the single-reader discipline this scheduling is
observationally equivalent. -/
def processNextChunk (cfg : PCfg) (st : RState) : Option RErr × RState :=
  if st.closed then (some .eof, st)
  else
    let n := min cfg.chunkSize st.src.length
    let dataC := st.src.take cfg.chunkSize
    if n = 0 ∧ st.src.length < cfg.chunkSize then (some .eof, st)
    else
      let src1 := st.src.drop cfg.chunkSize
      let c : WChunk := ⟨st.nextChunk, dataC, src1.take cfg.maxLength,
        decide (st.src.length < cfg.chunkSize)⟩
      let st1 := { st with
        src := src1.drop cfg.maxLength, nextChunk := st.nextChunk + 1 }
      if cfg.capacity ≤ st1.workQueue.length then (some .workFull, st1)
      else
        let st2 := { st1 with workQueue := st1.workQueue ++ [c] }
        match runWorkers cfg st2 with
        | none => (some .hang, st2)
        | some st3 => processResults cfg st3

/-- `Reader.Read` (lib.go:189-206): when the reader is closed it
returns EOF immediately — even with undelivered bytes still in the
buffer; when the buffer is empty it refills it through
`processNextChunk`, closing the reader if that reports EOF; then it
copies `min size buffer.length` bytes out of the buffer. -/
def readStep (cfg : PCfg) (size : Nat) (st : RState) :
    List Nat × Option RErr × RState :=
  if st.closed then ([], some .eof, st)
  else
    match (if st.buffer.isEmpty then processNextChunk cfg st else (none, st)) with
    | (some e, st1) => ([], some e, if e = .eof then closeR st1 else st1)
    | (none, st1) =>
      let n := min size st1.buffer.length
      (st1.buffer.take n, none, { st1 with buffer := st1.buffer.drop n })

/-- A sequence of `Read` calls with the given destination sizes,
stopped at the first error: the bytes of each call, the terminating
error if any, and the final state. -/
def readMany (cfg : PCfg) : List Nat → RState → List (List Nat) × Option RErr × RState
  | [], st => ([], none, st)
  | size :: rest, st =>
    match readStep cfg size st with
    | (bs, some e, st') => ([bs], some e, st')
    | (bs, none, st') =>
      let r := readMany cfg rest st'
      (bs :: r.1, r.2.1, r.2.2)

/-- The pipeline configuration used in the C1/C5 failing-input
theorems and the C10 witness: identity digest, one registered digest
`[99, 99, 99, 99]` that matches nothing in the inputs used, window
length 4, mask `[42, 42]`, `maxLength = 4`, the code's fixed 32 KiB
chunk size, 4 workers.  (It is exactly the reader `NewReader` builds
for these arguments; see `cfgPipe_from_NewReader`.) -/
def cfgPipe : PCfg := ⟨⟨fun _ d => d, [], [[99, 99, 99, 99]], [4], [42, 42]⟩, 4, 32 * 1024, 4⟩

theorem cfgPipe_from_NewReader :
    NewReader 4 (fun _ d => d) [] [[99, 99, 99, 99]] [4] ⟨[42, 42], 4⟩ =
      Except.ok (NRResult.reader cfgPipe) := rfl

/-- Claim C1, failing input: on the 8-byte source
`[10, …, 17]` (shorter than one chunk, nothing matches) with
destination buffers of 3 bytes, the reader delivers `[10, 11, 12]` and
then signals EOF, although whole-buffer `processData` returns all 8
bytes unchanged: the concatenation of the delivered bytes is not the
whole-buffer result, because the reader closes itself when it flushes
the final chunk and the next `Read` returns EOF with 5 undelivered
bytes still in the buffer. -/
theorem c1_chunked_read_differs_from_whole_buffer :
    (readMany cfgPipe [3, 3] (initR [10, 11, 12, 13, 14, 15, 16, 17])).1.flatten
        = [10, 11, 12] ∧
    (readMany cfgPipe [3, 3] (initR [10, 11, 12, 13, 14, 15, 16, 17])).2.1
        = some RErr.eof ∧
    processData cfgPipe.core [10, 11, 12, 13, 14, 15, 16, 17]
        = some [10, 11, 12, 13, 14, 15, 16, 17] ∧
    ([10, 11, 12] : List Nat) ≠ [10, 11, 12, 13, 14, 15, 16, 17] :=
  ⟨by decide, by decide, by decide, by decide⟩

/-- Claim C5, failing input: reading the 5-byte source `[1, …, 5]`
(no matches) with a 2-byte destination delivers `[1, 2]` and leaves
the reader closed with `[3, 4, 5]` still buffered; the next `Read`
returns EOF and no bytes, discarding the buffered output. -/
theorem c5_eof_discards_buffered_output :
    (readStep cfgPipe 2 (initR [1, 2, 3, 4, 5])).1 = [1, 2] ∧
    (readStep cfgPipe 2 (initR [1, 2, 3, 4, 5])).2.1 = none ∧
    (readStep cfgPipe 2 (initR [1, 2, 3, 4, 5])).2.2.closed = true ∧
    (readStep cfgPipe 2 (initR [1, 2, 3, 4, 5])).2.2.buffer = [3, 4, 5] ∧
    (readStep cfgPipe 2 ((readStep cfgPipe 2 (initR [1, 2, 3, 4, 5])).2.2)).1 = [] ∧
    (readStep cfgPipe 2 ((readStep cfgPipe 2 (initR [1, 2, 3, 4, 5])).2.2)).2.1
        = some RErr.eof :=
  ⟨by decide, by decide, by decide, by decide, by decide, by decide⟩

theorem closeR_queues (st : RState) (h1 : st.workQueue = []) (h2 : st.resultQueue = []) :
    (closeR st).workQueue = [] ∧ (closeR st).resultQueue = [] := by
  unfold closeR
  split
  · exact ⟨h1, h2⟩
  · exact ⟨rfl, rfl⟩

theorem flushLoop_queues (cfg : PCfg) :
    ∀ (fuel : Nat) (st : RState), st.workQueue = [] → st.resultQueue = [] →
      (flushLoop cfg fuel st).workQueue = [] ∧ (flushLoop cfg fuel st).resultQueue = [] := by
  intro fuel
  induction fuel with
  | zero => intro st h1 h2; exact ⟨h1, h2⟩
  | succ fuel ih =>
    intro st h1 h2
    simp only [flushLoop]
    cases st.pending.lookup (st.buffer.length / cfg.chunkSize) with
    | none => exact ⟨h1, h2⟩
    | some c =>
      by_cases hl : c.isLast
      · simp only [if_pos hl]
        exact closeR_queues _ h1 h2
      · simp only [if_neg hl]
        exact ih _ h1 h2

theorem processResults_no_workFull (cfg : PCfg) (st : RState)
    (h1 : st.workQueue = []) (r : RChunk) (h2 : st.resultQueue = [r]) :
    (processResults cfg st).1 ≠ some RErr.workFull ∧
      ((processResults cfg st).1 = none →
        (processResults cfg st).2.workQueue = [] ∧
        (processResults cfg st).2.resultQueue = []) := by
  unfold processResults
  split
  · simp
  · cases hr : st.resultQueue with
    | nil => rw [hr] at h2; exact absurd h2 (by simp)
    | cons r' rest =>
      rw [hr] at h2
      have hrest : rest = [] := by
        injection h2 with _ h
      subst hrest
      constructor
      · simp
      · intro _
        exact flushLoop_queues cfg _ _ h1 rfl

theorem runWorkers_single (cfg : PCfg) (st2 : RState) (c : WChunk)
    (hwq : st2.workQueue = [c]) :
    runWorkers cfg st2 = none ∨
    ∃ r, runWorkers cfg st2 =
      some { st2 with workQueue := [], resultQueue := st2.resultQueue ++ [r] } := by
  unfold runWorkers
  rw [hwq]
  simp only [runWorkersAux]
  cases workerOne cfg c with
  | none => left; rfl
  | some r => right; exact ⟨r, by simp⟩

theorem processNextChunk_no_workFull (cfg : PCfg) (hcap : 1 ≤ cfg.capacity)
    (st : RState) (h1 : st.workQueue = []) (h2 : st.resultQueue = []) :
    (processNextChunk cfg st).1 ≠ some RErr.workFull ∧
      ((processNextChunk cfg st).1 = none →
        (processNextChunk cfg st).2.workQueue = [] ∧
        (processNextChunk cfg st).2.resultQueue = []) := by
  obtain ⟨src, buffer, wq, rq, pending, nc, closed⟩ := st
  simp only at h1 h2
  subst h1
  subst h2
  unfold processNextChunk
  by_cases hc : closed
  · simp [hc]
  · simp only [hc, Bool.false_eq_true, if_false]
    by_cases he : min cfg.chunkSize src.length = 0 ∧ src.length < cfg.chunkSize
    · simp only [if_pos he]
      simp
    · simp only [if_neg he]
      rw [if_neg (by simp; omega)]
      rcases runWorkers_single cfg
          ⟨(src.drop cfg.chunkSize).drop cfg.maxLength, buffer,
            [] ++ [⟨nc, src.take cfg.chunkSize, (src.drop cfg.chunkSize).take cfg.maxLength,
              decide (src.length < cfg.chunkSize)⟩],
            [], pending, nc + 1, false⟩
          ⟨nc, src.take cfg.chunkSize, (src.drop cfg.chunkSize).take cfg.maxLength,
            decide (src.length < cfg.chunkSize)⟩
          rfl with hrw | ⟨r, hrw⟩
      · rw [hrw]
        simp
      · rw [hrw]
        exact processResults_no_workFull cfg _ rfl r rfl

theorem readStep_no_workFull (cfg : PCfg) (hcap : 1 ≤ cfg.capacity)
    (size : Nat) (st : RState) (h1 : st.workQueue = []) (h2 : st.resultQueue = []) :
    (readStep cfg size st).2.1 ≠ some RErr.workFull ∧
      ((readStep cfg size st).2.1 = none →
        (readStep cfg size st).2.2.workQueue = [] ∧
        (readStep cfg size st).2.2.resultQueue = []) := by
  unfold readStep
  by_cases hc : st.closed
  · simp [hc]
  · simp only [hc, Bool.false_eq_true, if_false]
    by_cases hb : st.buffer.isEmpty
    · rw [if_pos hb]
      have hp := processNextChunk_no_workFull cfg hcap st h1 h2
      rcases hpn : processNextChunk cfg st with ⟨e?, st1⟩
      rw [hpn] at hp
      cases e? with
      | some e =>
        constructor
        · exact hp.1
        · intro hcontra
          exact absurd hcontra (by simp)
      | none =>
        constructor
        · simp
        · intro _
          exact ⟨(hp.2 rfl).1, (hp.2 rfl).2⟩
    · rw [if_neg hb]
      constructor
      · simp
      · intro _
        exact ⟨h1, h2⟩

/-- Claim C10: under the single-reader discipline — each
`processNextChunk` call sends exactly one chunk and then consumes
exactly one result — the work and result channels are empty at the
start of every `Read`, so the non-blocking send never finds the work
channel at capacity: for every source, every sequence of `Read` calls
and every worker count of at least one (Go guarantees
`runtime.NumCPU() ≥ 1`), `Read` never returns the
`"work channel full"` error. -/
theorem c10_work_channel_never_full (cfg : PCfg) (hcap : 1 ≤ cfg.capacity)
    (sizes : List Nat) (src : List Nat) :
    (readMany cfg sizes (initR src)).2.1 ≠ some RErr.workFull := by
  have main : ∀ (ss : List Nat) (st : RState), st.workQueue = [] → st.resultQueue = [] →
      (readMany cfg ss st).2.1 ≠ some RErr.workFull := by
    intro ss
    induction ss with
    | nil =>
      intro st _ _
      simp [readMany]
    | cons size rest ih =>
      intro st h1 h2
      have hstep := readStep_no_workFull cfg hcap size st h1 h2
      simp only [readMany]
      rcases hr : readStep cfg size st with ⟨bs, e?, st'⟩
      rw [hr] at hstep
      cases e? with
      | some e => exact hstep.1
      | none => exact ih st' (hstep.2 rfl).1 (hstep.2 rfl).2
  exact main sizes (initR src) rfl rfl

theorem c10_witness :
    (readMany cfgPipe [3, 3] (initR [10, 11, 12, 13, 14, 15, 16, 17])).2.1
      ≠ some RErr.workFull :=
  c10_work_channel_never_full cfgPipe (by decide) [3, 3]
    [10, 11, 12, 13, 14, 15, 16, 17]
